import Mathlib

/-! # Shallow embedding of the `brickdb` LSM storage core

This file embeds the LSM-tree storage core of the repository
(`src/storage/{record,memtable,sstable,level,lsm}.rs`) as executable Lean
definitions and proves the specification claims about it.

Modelling conventions:
* `ObjectId` keys (96-bit, totally ordered by their big-endian bytes) are
  modelled as `Nat`; the engine only ever compares keys, so any infinite
  linearly ordered type with decidable comparison is a faithful model.
* BSON `Document` payloads are opaque to the engine (never inspected, only
  cloned and moved), so they are modelled as `Nat`.
* `bson::DateTime` timestamps (`created_at` fields) are modelled as `Nat`
  (milliseconds since epoch); the code only compares them.
* Fresh nondeterministic values (`ObjectId::new()`, `DateTime::now()`) are
  passed as explicit arguments to the embedded operations.
* Disk I/O is abstracted: an `SSTableHandle` carries the table stored at its
  path (`read` returns it, `write` installs it); fallible constructors return
  `Except String _` mirroring `anyhow::Result`.
* The `bloom` crate's `BloomFilter` is modelled by the list of keys inserted
  into it, with `contains` as exact membership.  A real Bloom filter
  guarantees `insert k` implies `contains k` (no false negatives) and allows
  spurious positives; every claim below depends only on the no-false-negative
  direction and on the concrete set of insertions performed by the repository
  code, so exact membership is a faithful abstraction for these claims.
-/

namespace Brickdb

/-- Configuration constant from `src/storage/conf.rs`: max tables per level. -/
def MAX_TABLES_PER_LEVEL : Nat := 10

/-- Configuration constant from `src/storage/conf.rs`: max memtable records. -/
def MEMTABLE_MAX_SIZE : Nat := 100

/-- A value stored in an SSTable: real data or a tombstone
(`src/storage/record.rs`, `enum Value<T>`). -/
inductive Value (T : Type) where
  | Data (d : T)
  | Tombstone
deriving Repr, DecidableEq

/-- Opaque document payload: the engine never inspects documents. -/
abbrev Doc := Nat

/-- A record stored in an SSTable (`src/storage/record.rs`, `struct Record`).
Keys are `ObjectId`s, modelled as `Nat`. -/
structure Record where
  key : Nat
  value : Value Doc
deriving Repr, DecidableEq

/-- Default record used for safe list indexing in loop embeddings (the Rust
code indexes slices only at positions it has bounds-checked). -/
def defaultRecord : Record := ⟨0, Value.Tombstone⟩

/-! ## MemTable (`src/storage/memtable.rs`)

The memtable's `BTreeMap<ObjectId, Value<Document>>` is modelled as an
association list kept sorted by key with unique keys — exactly the view the
code relies on (`insert` overwrites, iteration is key-ascending). -/

/-- Embeds `BTreeMap::insert`: ordered insert into a key-sorted association list,
overwriting an existing binding for an equal key. -/
def btreeInsert (k : Nat) (v : Value Doc) :
    List (Nat × Value Doc) → List (Nat × Value Doc)
  | [] => [(k, v)]
  | (k', v') :: rest =>
    if k < k' then (k, v) :: (k', v') :: rest
    else if k = k' then (k, v) :: rest
    else (k', v') :: btreeInsert k v rest

/-- Embeds `BTreeMap::get`: lookup in the association list. -/
def btreeGet (k : Nat) : List (Nat × Value Doc) → Option (Value Doc)
  | [] => none
  | (k', v') :: rest => if k' = k then some v' else btreeGet k rest

/-- The in-memory buffer (`struct MemTable`).  The records map is the sorted
association list standing for the `BTreeMap`.  (The older copy of the type in
`src/storage/lsm.rs` is identical except that it lacks `max_records`.) -/
structure Memtable where
  records : List (Nat × Value Doc)
  max_records : Nat
deriving Repr, DecidableEq

namespace Memtable

/-- Embeds `MemTable::new`. -/
def new : Memtable := ⟨[], MEMTABLE_MAX_SIZE⟩

/-- Embeds `MemTable::insert`. -/
def insert (m : Memtable) (k : Nat) (v : Value Doc) : Memtable :=
  { m with records := btreeInsert k v m.records }

/-- Embeds `MemTable::set`. -/
def set (m : Memtable) (k : Nat) (d : Doc) : Memtable :=
  m.insert k (Value.Data d)

/-- Embeds `MemTable::del`: writes a tombstone, never removes the key. -/
def del (m : Memtable) (k : Nat) : Memtable :=
  m.insert k Value.Tombstone

/-- Embeds `MemTable::get`. -/
def get (m : Memtable) (k : Nat) : Option (Value Doc) :=
  btreeGet k m.records

/-- Embeds `MemTable::clear`. -/
def clear (m : Memtable) : Memtable := { m with records := [] }

/-- Embeds `MemTable::size`. -/
def size (m : Memtable) : Nat := m.records.length

/-- Embeds `MemTable::is_full`. -/
def is_full (m : Memtable) : Bool := m.size ≥ m.max_records

end Memtable

/-! ## SSTable (`src/storage/sstable.rs`) -/

/-- Metadata of an SSTable (`struct SSTableMeta`). -/
structure SSTableMeta where
  table_id : Nat
  created_at : Nat
  min_key : Nat
  max_key : Nat
  num_records : Nat
deriving Repr, DecidableEq

/-- Embeds `SSTableMeta::key_in_range`: inclusive range check. -/
def SSTableMeta.key_in_range (meta : SSTableMeta) (key : Nat) : Bool :=
  meta.min_key ≤ key && key ≤ meta.max_key

/-- An SSTable (`struct SSTable`). -/
structure SSTable where
  meta : SSTableMeta
  records : List Record
deriving Repr, DecidableEq

namespace SSTable

/-- Embeds `SSTable::new`: derives metadata from an ordered record vector; errors on
empty input.  The fresh `ObjectId` and its timestamp are passed explicitly. -/
def new (tableId createdAt : Nat) (records : List Record) :
    Except String SSTable :=
  match records.head? with
  | none => .error "records vec was empty"
  | some first =>
    match records.getLast? with
    | none => .error "records vec was empty"
    | some last =>
      .ok { meta := { table_id := tableId
                      created_at := createdAt
                      min_key := first.key
                      max_key := last.key
                      num_records := records.length }
            records := records }

end SSTable

/-- Slice binary search (`<[Record]>::binary_search_by` with comparator
`record.key.cmp(key)`), as used by `SSTable::get_index`.  `lo`/`hi` are the
`left`/`right` cursors of the Rust loop; `mid = left + (right - left) / 2`.
Returns the index of a record whose key matches, or `none` (the Rust `Err`
insertion point is discarded by `.ok()`). -/
def binSearchAux (recs : List Record) (key : Nat) :
    Nat → Nat → Nat → Option Nat
  | 0, _, _ => none
  | fuel + 1, lo, hi =>
    if lo < hi then
      let mid := lo + (hi - lo) / 2
      match compare (recs.getD mid defaultRecord).key key with
      | .lt => binSearchAux recs key fuel (mid + 1) hi
      | .gt => binSearchAux recs key fuel lo mid
      | .eq => some mid
    else
      none

/-- Entry point of the binary search on `[lo, hi)`.  The loop shrinks
`hi - lo` by at least one per iteration, so `hi - lo` units of fuel make the
structural recursion above run the Rust loop to completion. -/
def binSearchGo (recs : List Record) (key : Nat) (lo hi : Nat) : Option Nat :=
  binSearchAux recs key (hi - lo) lo hi

namespace SSTable

/-- Embeds `SSTable::get_index`: binary search over the record vector. -/
def get_index (t : SSTable) (key : Nat) : Option Nat :=
  binSearchGo t.records key 0 t.records.length

/-- Embeds `SSTable::get`: binary search, returning the full record. -/
def get (t : SSTable) (key : Nat) : Option Record :=
  match t.get_index key with
  | none => none
  | some i => t.records.get? i

/-- The scan loop of `SSTable::get_range`: from index `i` to the end, pushing
records until one with `key > max_key` is met.  (Structural recursion on a
fuel argument; the loop runs at most `recs.length - i` iterations.) -/
def rangeAux (recs : List Record) (maxKey : Nat) : Nat → Nat → List Record
  | 0, _ => []
  | fuel + 1, i =>
    if i < recs.length then
      let r := recs.getD i defaultRecord
      if maxKey < r.key then [] else r :: rangeAux recs maxKey fuel (i + 1)
    else
      []

/-- Entry point of the `get_range` scan loop starting at index `i`. -/
def rangeLoop (recs : List Record) (maxKey : Nat) (i : Nat) : List Record :=
  rangeAux recs maxKey (recs.length - i) i

/-- Embeds `SSTable::get_range`: inclusive range scan.  If `min_key` is not found by
the binary search the function returns the empty vector. -/
def get_range (t : SSTable) (minKey maxKey : Nat) : List Record :=
  match t.get_index minKey with
  | none => []
  | some i => rangeLoop t.records maxKey i

end SSTable

/-- The two-pointer loop of `SSTable::merge`.  NOTE: the source reads
`let r_older = &other.records[i_older];` — from `other`, the method argument,
not from the computed `older` table — while the loop bounds use
`older.records.len()`.  The embedding reproduces this exactly, which is why
the loop takes both `olderRecs` (for the bound and the trailing drain) and
`otherRecs` (for the element actually compared and pushed). -/
def mergeAux (newerRecs olderRecs otherRecs : List Record) :
    Nat → Nat → Nat → List Record
  | 0, iN, iO => newerRecs.drop iN ++ olderRecs.drop iO
  | fuel + 1, iN, iO =>
    if iN < newerRecs.length ∧ iO < olderRecs.length then
      let rN := newerRecs.getD iN defaultRecord
      let rO := otherRecs.getD iO defaultRecord
      match compare rN.key rO.key with
      | .lt => rN :: mergeAux newerRecs olderRecs otherRecs fuel (iN + 1) iO
      | .gt => rO :: mergeAux newerRecs olderRecs otherRecs fuel iN (iO + 1)
      | .eq => rN :: mergeAux newerRecs olderRecs otherRecs fuel (iN + 1) (iO + 1)
    else
      newerRecs.drop iN ++ olderRecs.drop iO

/-- Entry point of the merge loop: every iteration advances at least one of
the two cursors, so `newer.len + older.len` units of fuel run the Rust loop
(and the two trailing drain loops, embedded as the `drop`-appends) in full. -/
def mergeLoop (newerRecs olderRecs otherRecs : List Record) (iN iO : Nat) :
    List Record :=
  mergeAux newerRecs olderRecs otherRecs
    ((newerRecs.length - iN) + (olderRecs.length - iO)) iN iO

/-- Embeds `SSTable::merge`: picks `(newer, older)` by strict `created_at`
comparison (`self` wins only when strictly newer), runs the two-pointer loop,
drains the remainders, and builds the result with `SSTable::new` (fresh id
and timestamp passed explicitly). -/
def SSTable.merge (self other : SSTable) (tableId createdAt : Nat) :
    Except String SSTable :=
  let p := if other.meta.created_at < self.meta.created_at
           then (self, other) else (other, self)
  let records := mergeLoop p.1.records p.2.records other.records 0 0
  SSTable.new tableId createdAt records

/-- Embeds `MemTable::flush`: emits the map's records in ascending key order with
fresh table metadata; errors if the memtable is empty.  (`records.first()` /
`records.last()` both produce the "records vec was empty" error.) -/
def Memtable.flush (m : Memtable) (tableId createdAt : Nat) :
    Except String SSTable :=
  let records : List Record := m.records.map (fun p => ⟨p.1, p.2⟩)
  match records.head? with
  | none => .error "records vec was empty"
  | some first =>
    match records.getLast? with
    | none => .error "records vec was empty"
    | some last =>
      .ok { meta := { table_id := tableId
                      created_at := createdAt
                      min_key := first.key
                      max_key := last.key
                      num_records := records.length }
            records := records }

/-! ## SSTableHandle (`src/storage/sstable.rs`) and Level (`src/storage/level.rs`)

A handle is `(meta, path, active)` plus — as the model of the disk — the
table stored at `path`: `SSTableHandle::read` returns it, and every handle
manufactured by the embedded operations stores the table that the Rust code
writes at that moment. -/

structure SSTableHandle where
  meta : SSTableMeta
  path : String
  active : Bool
  /-- Model of the file contents at `path` (what `read` returns). -/
  table : SSTable
deriving Repr, DecidableEq

/-- Metadata of a level (`struct LevelMeta`). -/
structure LevelMeta where
  id : Nat
  created_at : Nat
  level : Nat
  num_tables : Nat
  table_ids : List Nat
deriving Repr, DecidableEq

/-- Embeds `LevelMeta::new` (fresh id and timestamp passed explicitly). -/
def LevelMeta.new (freshId freshCreatedAt level num_tables : Nat)
    (table_ids : List Nat) : LevelMeta :=
  ⟨freshId, freshCreatedAt, level, num_tables, table_ids⟩

/-- An on-disk level (`struct Level`).  `bloom_filter` is the model of the
`bloom` crate filter: the list of keys inserted into it. -/
structure Level where
  meta : LevelMeta
  tables : List SSTableHandle
  bloom_filter : List Nat
  path : String
  max_tables : Nat
  records_per_table : Nat
deriving Repr, DecidableEq

namespace Level

/-- Embeds `Level::new`: fresh metadata derived from the initial table list, path
`<parent>/<level_id>`, and a NEWLY CREATED (empty) bloom filter — the keys of
the initial tables are not inserted.  The `to_disk` flag only affects disk
side effects and is dropped by the embedding. -/
def new (parent_path : String) (freshId freshCreatedAt : Nat)
    (level_number : Nat) (tables : List SSTableHandle) : Level :=
  { meta := LevelMeta.new freshId freshCreatedAt level_number tables.length
      (tables.map (fun (t : SSTableHandle) => t.meta.table_id))
    tables := tables
    bloom_filter := []
    path := parent_path ++ "/" ++ toString freshId
    max_tables := MAX_TABLES_PER_LEVEL
    records_per_table := MEMTABLE_MAX_SIZE * level_number }

/-- Embeds `Level::get_bloom_filter`: a fresh filter into which every record key of
every table of the level is inserted, iterating the handles in reverse order
(`self.tables.iter().rev()`). -/
def get_bloom_filter (lvl : Level) : List Nat :=
  lvl.tables.reverse.foldl
    (fun bf th => bf ++ th.table.records.map (fun r => r.key)) []

/-- Embeds `Level::doesnt_contain`: negated bloom-filter membership. -/
def doesnt_contain (lvl : Level) (key : Nat) : Bool :=
  !(lvl.bloom_filter.contains key)

/-- Embeds `Level::format_table_path`: `<level_path>/<table_id>.bson`. -/
def format_table_path (lvl : Level) (id : Nat) : String :=
  lvl.path ++ "/" ++ toString id ++ ".bson"

/-- Embeds `Level::update_table_ids`: rewrites `meta.table_ids` and
`meta.num_tables` from the handle list and rebuilds the bloom filter via
`get_bloom_filter`.  (The metadata file write is a disk effect.) -/
def update_table_ids (lvl : Level) : Level :=
  let lvl' := { lvl with
    meta := { lvl.meta with
      table_ids := lvl.tables.map (fun (t : SSTableHandle) => t.meta.table_id)
      num_tables := lvl.tables.length } }
  { lvl' with bloom_filter := lvl'.get_bloom_filter }

/-- Embeds `Level::add_sstable`: writes the table under the level directory, appends
its handle, then runs `update_table_ids`. -/
def add_sstable (lvl : Level) (table : SSTable) : Level :=
  let handle : SSTableHandle :=
    { meta := table.meta
      path := lvl.format_table_path table.meta.table_id
      active := true
      table := table }
  update_table_ids { lvl with tables := lvl.tables ++ [handle] }

/-- Embeds `Level::is_full`. -/
def is_full (lvl : Level) : Bool := lvl.tables.length ≥ lvl.max_tables

/-- The handle-scanning loop of `Level::get`: skip inactive handles and
handles whose `[min_key, max_key]` range excludes the key; otherwise read the
table and binary-search it, returning the first hit. -/
def getLoop (key : Nat) : List SSTableHandle → Option Record
  | [] => none
  | th :: rest =>
    if !th.active then getLoop key rest
    else if !(th.meta.key_in_range key) then getLoop key rest
    else
      match th.table.get key with
      | some record => some record
      | none => getLoop key rest

/-- Embeds `Level::get`: early-reject via the bloom filter, then scan the handles in
stored order.  (Errors can only arise from I/O, which the model absorbs.) -/
def get (lvl : Level) (key : Nat) : Option Record :=
  if lvl.doesnt_contain key then none
  else getLoop key lvl.tables

/-- The filtering loop of `Level::clear`: handles whose `table_id` is listed
are deleted from disk; the others are pushed onto `remaining` in order. -/
def clearLoop (ids : List Nat) : List SSTableHandle → List SSTableHandle
  | [] => []
  | th :: rest =>
    if ids.contains th.meta.table_id then clearLoop ids rest
    else th :: clearLoop ids rest

/-- Embeds `Level::clear`: drops the handles for the listed ids (deleting their
files) and runs `update_table_ids` on the remainder. -/
def clear (lvl : Level) (ids : List Nat) : Level :=
  update_table_ids { lvl with tables := clearLoop ids lvl.tables }

/-- Embeds `Level::clear_all`: empties the handle list and deletes the files.  Note
that — unlike `clear` — it never calls `update_table_ids`, so `meta` and the
bloom filter are left untouched. -/
def clear_all (lvl : Level) : Level :=
  { lvl with tables := [] }

/-- The gathering loop of `Level::reload_handles`: for each id in
`meta.table_ids`, read the table at `<level_path>/<id>.bson` (the model's
`disk` maps a table id's path to the table stored there, `none` standing for
a failed read), build an active handle carrying it, and insert all of its
record keys into the fresh bloom filter. -/
def reloadGather (lvl : Level) (disk : Nat → Option SSTable) :
    List Nat → Except String (List SSTableHandle × List Nat)
  | [] => .ok ([], [])
  | id :: rest =>
    match disk id with
    | none => .error "read failed"
    | some table =>
      match reloadGather lvl disk rest with
      | .error e => .error e
      | .ok (hs, keys) =>
        .ok ({ meta := table.meta
               path := lvl.format_table_path id
               active := true
               table := table } :: hs,
             table.records.map (fun r => r.key) ++ keys)

/-- Embeds `Level::reload_handles`: rebuild the handles from `meta.table_ids`, sort
them by `created_at` descending (Rust's stable `sort_by` with comparator
`b.meta.created_at.cmp(&a.meta.created_at)`), and install the handles and the
freshly gathered bloom filter.  `meta` itself is not rewritten. -/
def reload_handles (lvl : Level) (disk : Nat → Option SSTable) :
    Except String Level :=
  match reloadGather lvl disk lvl.meta.table_ids with
  | .error e => .error e
  | .ok (handles, bf) =>
    .ok { lvl with
      tables := handles.mergeSort
        (fun a b => decide (b.meta.created_at ≤ a.meta.created_at))
      bloom_filter := bf }

end Level

/-! ## LSMTree (`src/storage/lsm.rs`)

The engine struct of `lsm.rs` holds an id, a name, a memtable (that file's
`MemTable` differs from `src/storage/memtable.rs` only by lacking
`max_records`; the shared `Memtable` model covers both), a vector of levels,
and a path.  Its `get_from_disk` body is `unimplemented!()` in the source, so
the disk consultation is modelled from the spec (see `getFromDisk`). -/

structure LSMTree where
  id : Nat
  name : String
  memtable : Memtable
  levels : List Level
  path : String

namespace LSMTree

/-- Embeds `LSMTree::new`. -/
def new (freshId : Nat) (name path : String) : LSMTree :=
  { id := freshId, name := name, memtable := Memtable.new
    levels := [], path := path }

/-- Embeds `LSMTree::insert`: `self.memtable.records.insert(key, value)`. -/
def insert (t : LSMTree) (key : Nat) (value : Value Doc) : LSMTree :=
  { t with memtable :=
      { t.memtable with records := btreeInsert key value t.memtable.records } }

/-- Embeds `LSMTree::set`. -/
def set (t : LSMTree) (key : Nat) (doc : Doc) : LSMTree :=
  t.insert key (Value.Data doc)

/-- Embeds `LSMTree::del`. -/
def del (t : LSMTree) (key : Nat) : LSMTree :=
  t.insert key Value.Tombstone

/-- Embeds `LSMTree::get_from_memtable`. -/
def get_from_memtable (t : LSMTree) (key : Nat) : Option (Value Doc) :=
  btreeGet key t.memtable.records

/-- Modelled from the spec: the body of `LSMTree::get_from_disk` is
`unimplemented!()` in `src/storage/lsm.rs`, so the on-disk lookup is modelled
from the spec's words — consult "each level in index order (level 1, then 2,
…)" and stop at the first level containing the key (each level is consulted
through `Level::get`; the tombstone interpretation happens in the caller,
`LSMTree::get`, as in the source). -/
def getFromDisk (levels : List Level) (key : Nat) : Option (Value Doc) :=
  match levels with
  | [] => none
  | lvl :: rest =>
    match lvl.get key with
    | some record => some record.value
    | none => getFromDisk rest key

/-- Embeds `LSMTree::get`: check the memtable first (a tombstone there yields
`None`), then the on-disk levels. -/
def get (t : LSMTree) (key : Nat) : Option Doc :=
  match t.get_from_memtable key with
  | some value =>
    match value with
    | Value.Data doc => some doc
    | Value.Tombstone => none
  | none =>
    match getFromDisk t.levels key with
    | some (Value.Data doc) => some doc
    | some Value.Tombstone => none
    | none => none

end LSMTree

/-! ## Predicates and concrete instances used by the verification -/

/-- A record list is strictly key-ascending (the `SortedTable` invariant). -/
def SortedKeys (recs : List Record) : Prop :=
  recs.Pairwise (fun a b => a.key < b.key)

instance : DecidablePred SortedKeys := fun recs =>
  inferInstanceAs (Decidable (recs.Pairwise _))

/-- The levels reachable by the level operations, starting from
`Level::new` with an empty initial table list; `add_sstable`, `clear` and
`reload_handles` preserve reachability (fresh ids, timestamps and the disk
contents seen by a reload are arbitrary). -/
inductive ReachableLevel : Level → Prop where
  | new_empty (parent : String) (freshId freshCreatedAt level_number : Nat) :
      ReachableLevel (Level.new parent freshId freshCreatedAt level_number [])
  | add (lvl : Level) (table : SSTable) : ReachableLevel lvl →
      ReachableLevel (lvl.add_sstable table)
  | clear (lvl : Level) (ids : List Nat) : ReachableLevel lvl →
      ReachableLevel (lvl.clear ids)
  | reload (lvl lvl' : Level) (disk : Nat → Option SSTable) :
      ReachableLevel lvl → lvl.reload_handles disk = .ok lvl' →
      ReachableLevel lvl'

/-- The level-wide Bloom invariant: every record key of every table of the
level has been inserted into the level's bloom filter. -/
def BloomInv (lvl : Level) : Prop :=
  ∀ h ∈ lvl.tables, ∀ r ∈ h.table.records, r.key ∈ lvl.bloom_filter

/-- Failing input for the merge claim: the older of the two tables, holding
the key `2` that the merge loses. -/
def mergeOlderTbl : SSTable :=
  { meta := ⟨100, 1, 2, 2, 1⟩, records := [⟨2, Value.Data 0⟩] }

/-- Failing input for the merge claim: the newer table, holding keys `1`
and `3`. -/
def mergeNewerTbl : SSTable :=
  { meta := ⟨101, 2, 1, 3, 2⟩, records := [⟨1, Value.Data 7⟩, ⟨3, Value.Data 8⟩] }

/-- A one-record table (key `5` ↦ `10`, `created_at = 1`): the older table of
the stale-read scenario for `Level::get`. -/
def staleOldTbl : SSTable :=
  { meta := ⟨1, 1, 5, 5, 1⟩, records := [⟨5, Value.Data 10⟩] }

/-- A one-record table (key `5` ↦ `20`, `created_at = 2`): the newer table of
the stale-read scenario for `Level::get`. -/
def staleNewTbl : SSTable :=
  { meta := ⟨2, 2, 5, 5, 1⟩, records := [⟨5, Value.Data 20⟩] }

/-- A level built by `Level::new` (empty) followed by two `add_sstable`
calls: first the older table, then the newer one, both containing key `5`. -/
def staleLevel : Level :=
  ((Level.new "p" 50 0 1 []).add_sstable staleOldTbl).add_sstable staleNewTbl

/-- A level holding exactly one table, used to exhibit the stale metadata
left behind by `Level::clear_all`. -/
def clearAllLevel : Level :=
  (Level.new "p" 70 0 1 []).add_sstable staleOldTbl

/-- A handle for `staleOldTbl`, passed to `Level::new` as an initial table to
exhibit the empty bloom filter `new` installs. -/
def initialHandle : SSTableHandle :=
  { meta := staleOldTbl.meta, path := "p/x", active := true, table := staleOldTbl }

/-- A level created by `Level::new` with a non-empty initial table list. -/
def newWithTablesLevel : Level :=
  Level.new "p" 60 0 1 [initialHandle]

/-- Concrete strictly-ascending table for the `get_range` witness. -/
def rangeTbl : SSTable :=
  { meta := ⟨9, 9, 1, 8, 4⟩
    records := [⟨1, Value.Data 1⟩, ⟨3, Value.Data 2⟩, ⟨5, Value.Data 3⟩,
                ⟨8, Value.Data 4⟩] }

/-- Concrete memtable for the flush witness. -/
def flushMemtable : Memtable :=
  { records := [(1, Value.Data 5), (3, Value.Data 6)], max_records := 100 }

/-- Concrete engine state for the lookup-order witness: the memtable maps
`1` to a tombstone and `2` to a document, and there are no on-disk levels. -/
def lookupTree : LSMTree :=
  { id := 0, name := "w"
    memtable := { records := [(1, Value.Tombstone), (2, Value.Data 7)]
                  max_records := 100 }
    levels := [], path := "p" }

end Brickdb

namespace Brickdb

/-! ## Supporting lemmas and claim theorems -/

/-- Embeds `BTreeMap::insert` followed by `get` of the same key returns the inserted
value, whatever the previous contents. -/
theorem btreeGet_btreeInsert_self (k : Nat) (v : Value Doc) :
    ∀ l, btreeGet k (btreeInsert k v l) = some v := by
  intro l
  induction l with
  | nil => simp [btreeInsert, btreeGet]
  | cons p rest ih =>
    obtain ⟨k', v'⟩ := p
    by_cases h1 : k < k'
    · simp [btreeInsert, h1, btreeGet]
    · by_cases h2 : k = k'
      · simp [btreeInsert, h1, h2, btreeGet]
      · have hne : k' ≠ k := fun h => h2 h.symm
        simp [btreeInsert, h1, h2, btreeGet, hne, ih]

/-- Embeds `update_table_ids` rewrites only metadata and the bloom filter. -/
theorem update_table_ids_tables (lvl : Level) :
    (lvl.update_table_ids).tables = lvl.tables := rfl

/-- The `clear` loop is a filter on the handle list. -/
theorem clearLoop_eq_filter (ids : List Nat) :
    ∀ l, Level.clearLoop ids l
      = l.filter (fun th => !(ids.contains th.meta.table_id)) := by
  intro l
  induction l with
  | nil => rfl
  | cons th rest ih =>
    by_cases h : th.meta.table_id ∈ ids
    · simp [Level.clearLoop, h, ih]
    · simp [Level.clearLoop, h, ih]

/-- If no level's lookup finds the key, the (spec-modelled) disk lookup
returns `none`. -/
theorem getFromDisk_eq_none {k : Nat} :
    ∀ {levels : List Level}, (∀ lvl ∈ levels, lvl.get k = none) →
      LSMTree.getFromDisk levels k = none := by
  intro levels
  induction levels with
  | nil => intro _; rfl
  | cons lvl rest ih =>
    intro h
    have h1 : lvl.get k = none := h lvl (by simp)
    have h2 : LSMTree.getFromDisk rest k = none :=
      ih (fun l hl => h l (by simp [hl]))
    simp [LSMTree.getFromDisk, h1, h2]

/-- In a strictly key-ascending record list, keys are monotone in the
index. -/
theorem sortedKeys_getD_lt {recs : List Record} (hs : SortedKeys recs)
    {i j : Nat} (hij : i < j) (hj : j < recs.length) :
    (recs.getD i defaultRecord).key < (recs.getD j defaultRecord).key := by
  have hi : i < recs.length := lt_trans hij hj
  rw [List.getD_eq_getElem recs defaultRecord hi,
    List.getD_eq_getElem recs defaultRecord hj]
  exact List.pairwise_iff_getElem.mp hs i j hi hj hij

/-- Soundness of the binary-search loop: a returned index lies in the record
list and carries the searched key. -/
theorem binSearchAux_sound (recs : List Record) (key : Nat) :
    ∀ (fuel lo hi : Nat), hi ≤ recs.length →
      ∀ i, binSearchAux recs key fuel lo hi = some i →
        i < recs.length ∧ (recs.getD i defaultRecord).key = key := by
  intro fuel
  induction fuel with
  | zero =>
    intro lo hi hhi i heq
    exact absurd heq (by simp [binSearchAux])
  | succ n ih =>
    intro lo hi hhi i heq
    simp only [binSearchAux] at heq
    split at heq
    case isTrue hlh =>
      split at heq
      case h_1 hc => exact ih _ _ hhi i heq
      case h_2 hc => exact ih lo (lo + (hi - lo) / 2) (by omega) i heq
      case h_3 hc =>
        have hi2 : i = lo + (hi - lo) / 2 := (Option.some_injective _ heq).symm
        subst hi2
        exact ⟨by omega, Nat.compare_eq_eq.mp hc⟩
    case isFalse hlh => exact absurd heq (by simp)

/-- Completeness of the binary-search loop on a strictly sorted record list:
if the loop misses, no index in the searched window carries the key. -/
theorem binSearchAux_none (recs : List Record) (key : Nat)
    (hs : SortedKeys recs) :
    ∀ (fuel lo hi : Nat), hi - lo ≤ fuel → hi ≤ recs.length →
      binSearchAux recs key fuel lo hi = none →
      ∀ j, lo ≤ j → j < hi →
        (recs.getD j defaultRecord).key ≠ key := by
  intro fuel
  induction fuel with
  | zero =>
    intro lo hi hf hhi heq j hj1 hj2
    exact absurd hj2 (by omega)
  | succ n ih =>
    intro lo hi hf hhi heq j hj1 hj2
    simp only [binSearchAux] at heq
    split at heq
    case isTrue hlh =>
      split at heq
      case h_1 hc =>
        have hmid : (recs.getD (lo + (hi - lo) / 2) defaultRecord).key < key :=
          Nat.compare_eq_lt.mp hc
        by_cases hjm : lo + (hi - lo) / 2 + 1 ≤ j
        · exact ih (lo + (hi - lo) / 2 + 1) hi (by omega) hhi heq j hjm hj2
        · intro hk
          have hj_le : j ≤ lo + (hi - lo) / 2 := by omega
          rcases eq_or_lt_of_le hj_le with he | hlt
          · rw [he] at hk; omega
          · have := sortedKeys_getD_lt hs hlt (by omega)
            omega
      case h_2 hc =>
        have hmid : key < (recs.getD (lo + (hi - lo) / 2) defaultRecord).key :=
          Nat.compare_eq_gt.mp hc
        by_cases hjm : j < lo + (hi - lo) / 2
        · exact ih lo (lo + (hi - lo) / 2) (by omega) (by omega) heq j hj1 hjm
        · intro hk
          have hj_ge : lo + (hi - lo) / 2 ≤ j := by omega
          rcases eq_or_lt_of_le hj_ge with he | hlt
          · rw [← he] at hk; omega
          · have := sortedKeys_getD_lt hs hlt (show j < recs.length by omega)
            omega
      case h_3 hc => exact absurd heq (by simp)
    case isFalse hlh => exact absurd hj2 (by omega)

/-- Embeds `SSTable::get_index` soundness. -/
theorem get_index_sound {t : SSTable} {key i : Nat}
    (h : t.get_index key = some i) :
    i < t.records.length ∧ (t.records.getD i defaultRecord).key = key :=
  binSearchAux_sound t.records key _ 0 t.records.length le_rfl i h

/-- Embeds `SSTable::get_index` completeness on a sorted table: a miss means no
record carries the key. -/
theorem get_index_none {t : SSTable} (hs : SortedKeys t.records)
    {key : Nat} (h : t.get_index key = none) :
    ∀ j, j < t.records.length →
      (t.records.getD j defaultRecord).key ≠ key := fun j hj =>
  binSearchAux_none t.records key hs _ 0 t.records.length (by omega) le_rfl h
    j (Nat.zero_le j) hj

/-- The `get_range` scan loop from index `i` is `takeWhile (key ≤ max)` on
the suffix of the record list from `i`. -/
theorem rangeAux_eq_takeWhile (recs : List Record) (mx : Nat) :
    ∀ (fuel i : Nat), recs.length - i ≤ fuel →
      SSTable.rangeAux recs mx fuel i
        = (recs.drop i).takeWhile (fun r => !(decide (mx < r.key))) := by
  intro fuel
  induction fuel with
  | zero =>
    intro i hf
    rw [List.drop_eq_nil_of_le (by omega)]
    rfl
  | succ n ih =>
    intro i hf
    simp only [SSTable.rangeAux]
    split
    case isTrue hi =>
      rw [List.drop_eq_getElem_cons hi, List.takeWhile_cons,
        List.getD_eq_getElem recs defaultRecord hi]
      by_cases hmx : mx < recs[i].key
      · simp [hmx]
      · simp [hmx, ih (i + 1) (by omega)]
    case isFalse hi =>
      rw [List.drop_eq_nil_of_le (by omega)]
      rfl

/-- On a strictly key-ascending record list, `takeWhile (key ≤ max)` equals
`filter (key ≤ max)`: once a key exceeds `max`, all later keys do too. -/
theorem takeWhile_eq_filter_of_sorted (mx : Nat) :
    ∀ (l : List Record), SortedKeys l →
      l.takeWhile (fun r => !(decide (mx < r.key)))
        = l.filter (fun r => !(decide (mx < r.key))) := by
  intro l
  induction l with
  | nil => intro _; rfl
  | cons a t ih =>
    intro hs
    rw [SortedKeys, List.pairwise_cons] at hs
    obtain ⟨ha, ht⟩ := hs
    rw [List.takeWhile_cons, List.filter_cons]
    by_cases hmx : mx < a.key
    · have hcond : (!(decide (mx < a.key))) = false := by simp [hmx]
      rw [hcond]
      simp only [Bool.false_eq_true, if_false]
      symm
      rw [List.filter_eq_nil_iff]
      intro b hb
      have hab := ha b hb
      simp
      omega
    · simp [hmx, ih ht]

/-! ## Claim theorems -/
theorem mem_foldl_append (f : SSTableHandle → List Nat) :
    ∀ (l : List SSTableHandle) (acc : List Nat) (x : Nat),
      x ∈ l.foldl (fun bf th => bf ++ f th) acc ↔
        x ∈ acc ∨ ∃ th ∈ l, x ∈ f th := by
  intro l
  induction l with
  | nil => intro acc x; simp
  | cons th rest ih =>
    intro acc x
    rw [List.foldl_cons, ih]
    simp [List.mem_append]
    tauto

/-- Every record key of every table of a level is inserted into the filter
rebuilt by `Level::get_bloom_filter`. -/
theorem mem_get_bloom_filter {lvl : Level} {h : SSTableHandle} {r : Record}
    (hh : h ∈ lvl.tables) (hr : r ∈ h.table.records) :
    r.key ∈ lvl.get_bloom_filter := by
  unfold Level.get_bloom_filter
  rw [mem_foldl_append]
  right
  exact ⟨h, List.mem_reverse.mpr hh, List.mem_map.mpr ⟨r, hr, rfl⟩⟩

/-- Embeds `update_table_ids` re-establishes the Bloom invariant unconditionally:
the rebuilt filter covers every key of every table of the level. -/
theorem bloomInv_update_table_ids (lvl : Level) :
    BloomInv lvl.update_table_ids := by
  intro h hh r hr
  exact @mem_get_bloom_filter
    { lvl with
      meta := { lvl.meta with
        table_ids := lvl.tables.map (fun t => t.meta.table_id)
        num_tables := lvl.tables.length } } h r hh hr

/-- Embeds `add_sstable` leaves the level with the Bloom invariant. -/
theorem bloomInv_add_sstable (lvl : Level) (tbl : SSTable) :
    BloomInv (lvl.add_sstable tbl) :=
  bloomInv_update_table_ids _

/-- Embeds `clear` leaves the level with the Bloom invariant. -/
theorem bloomInv_clear (lvl : Level) (ids : List Nat) :
    BloomInv (lvl.clear ids) :=
  bloomInv_update_table_ids _

/-- The reload gather loop inserts every key of every gathered table into
the fresh bloom filter. -/
theorem reloadGather_mem (lvl : Level) (disk : Nat → Option SSTable) :
    ∀ (ids : List Nat) (hs : List SSTableHandle) (keys : List Nat),
      Level.reloadGather lvl disk ids = .ok (hs, keys) →
      ∀ h ∈ hs, ∀ r ∈ h.table.records, r.key ∈ keys := by
  intro ids
  induction ids with
  | nil =>
    intro hs keys heq h hh
    simp [Level.reloadGather] at heq
    obtain ⟨h1, h2⟩ := heq
    subst h1
    exact absurd hh (List.not_mem_nil _)
  | cons id rest ih =>
    intro hs keys heq h hh r hr
    unfold Level.reloadGather at heq
    cases hdisk : disk id with
    | none => rw [hdisk] at heq; exact absurd heq (by simp)
    | some table =>
      rw [hdisk] at heq
      cases hrec : Level.reloadGather lvl disk rest with
      | error e => rw [hrec] at heq; exact absurd heq (by simp)
      | ok p =>
        obtain ⟨hs', keys'⟩ := p
        rw [hrec] at heq
        simp at heq
        obtain ⟨hhs, hkeys⟩ := heq
        subst hhs hkeys
        rcases List.mem_cons.mp hh with hh1 | hh2
        · subst hh1
          exact List.mem_append.mpr (Or.inl (List.mem_map.mpr ⟨r, hr, rfl⟩))
        · exact List.mem_append.mpr (Or.inr (ih hs' keys' hrec h hh2 r hr))

/-- A successful `reload_handles` leaves the level with the Bloom
invariant: the installed filter gathers the keys of exactly the reloaded
tables, and the installed handle list is a permutation of the gathered
handles. -/
theorem bloomInv_reload_handles {lvl lvl' : Level}
    {disk : Nat → Option SSTable}
    (heq : lvl.reload_handles disk = .ok lvl') : BloomInv lvl' := by
  unfold Level.reload_handles at heq
  cases hg : Level.reloadGather lvl disk lvl.meta.table_ids with
  | error e => rw [hg] at heq; exact absurd heq (by simp)
  | ok p =>
    obtain ⟨hs, keys⟩ := p
    rw [hg] at heq
    simp at heq
    intro h hh r hr
    rw [← heq] at hh ⊢
    have hh' : h ∈ hs := (List.mergeSort_perm hs _).mem_iff.mp hh
    exact reloadGather_mem lvl disk _ hs keys hg h hh' r hr

/-- Every level reachable by the level operations (starting from `new` with
an empty table list) satisfies the Bloom invariant. -/
theorem bloomInv_of_reachable {lvl : Level} (h : ReachableLevel lvl) :
    BloomInv lvl := by
  induction h with
  | new_empty parent freshId freshCreatedAt level_number =>
    intro h hh
    exact absurd hh (List.not_mem_nil _)
  | add lvl tbl _ _ => exact bloomInv_add_sstable lvl tbl
  | clear lvl ids _ _ => exact bloomInv_clear lvl ids
  | reload lvl lvl' disk _ heq _ => exact bloomInv_reload_handles heq

/-! ## Claim theorems -/

/-- C3 counterexample: `Level::new` with a non-empty initial table list
installs a freshly created EMPTY bloom filter without inserting the initial
tables' keys, so `doesnt_contain` reports `true` for key `5` even though an
active table of the level holds a record with key `5` — and `Level::get`
consequently early-rejects the present key. -/
theorem level_new_bloom_false_negative :
    newWithTablesLevel.doesnt_contain 5 = true ∧
    initialHandle ∈ newWithTablesLevel.tables ∧
    (⟨5, Value.Data 10⟩ : Record) ∈ initialHandle.table.records ∧
    initialHandle.active = true ∧
    newWithTablesLevel.get 5 = none := by decide

/-- C3 (amended): for every level reachable by the level operations with
`new` restricted to an EMPTY initial table list (then `add_sstable`,
`clear`, `reload_handles`), a bloom reject (`doesnt_contain k = true`)
implies no table of the level holds a record with key `k`; hence the early
reject in `Level::get` never hides a present key. -/
theorem level_bloom_no_false_negatives (lvl : Level)
    (hl : ReachableLevel lvl) (k : Nat)
    (hk : lvl.doesnt_contain k = true) :
    (∀ h ∈ lvl.tables, ∀ r ∈ h.table.records, r.key ≠ k) ∧
      lvl.get k = none := by
  have hnot : k ∉ lvl.bloom_filter := by
    simpa [Level.doesnt_contain] using hk
  have hinv := bloomInv_of_reachable hl
  constructor
  · intro h hh r hr heq
    exact hnot (heq ▸ hinv h hh r hr)
  · simp [Level.get, hk]

/-- Witness for C3 (amended): a concrete reachable level (empty `new`, then
one `add_sstable` of a table holding key `5`) bloom-rejects key `7`, and the
theorem yields `get 7 = none`. -/
theorem level_bloom_no_false_negatives_witness :
    clearAllLevel.get 7 = none :=
  (level_bloom_no_false_negatives clearAllLevel
    (ReachableLevel.add _ staleOldTbl
      (ReachableLevel.new_empty "p" 70 0 1)) 7 (by decide)).2

/-- C1: `LSMTree::get(k)` consults the live memtable first: a tombstone
there yields `None` and data yields `Some(doc)`; when `k` is absent from the
memtable it consults the on-disk levels (modelled from the spec, since
`get_from_disk` is `unimplemented!()` in the source) and returns `None` when
no source contains `k`. -/
theorem lsm_get_consults_memtable_then_disk (t : LSMTree) (k : Nat) :
    (t.get_from_memtable k = some Value.Tombstone → t.get k = none) ∧
    (∀ d, t.get_from_memtable k = some (Value.Data d) → t.get k = some d) ∧
    (t.get_from_memtable k = none →
      (∀ lvl ∈ t.levels, lvl.get k = none) → t.get k = none) := by
  refine ⟨?_, ?_, ?_⟩
  · intro h
    simp [LSMTree.get, h]
  · intro d h
    simp [LSMTree.get, h]
  · intro h hlv
    simp [LSMTree.get, h, getFromDisk_eq_none hlv]

/-- Witness for C1: on a concrete engine whose memtable maps `1` to a
tombstone and `2` to the document `7` and which has no levels, `get`
returns `none`, `some 7` and `none` respectively. -/
theorem lsm_get_consults_memtable_then_disk_witness :
    lookupTree.get 1 = none ∧ lookupTree.get 2 = some 7 ∧
      lookupTree.get 3 = none :=
  ⟨(lsm_get_consults_memtable_then_disk lookupTree 1).1 (by rfl),
   (lsm_get_consults_memtable_then_disk lookupTree 2).2.1 7 (by rfl),
   (lsm_get_consults_memtable_then_disk lookupTree 3).2.2 (by rfl)
     (by intro lvl hl; exact absurd hl (List.not_mem_nil _))⟩

/-- C2 (code bug): when `self` is the OLDER table, `SSTable::merge` reads
the "older" cursor from `other` (the newer table) instead of from the
computed `older` binding, and loses records of the older table.  Here the
older table holds key `2`, the newer holds keys `1` and `3`, and the merge
result holds only `[1, 3]` instead of the key-sorted union `[1, 2, 3]`. -/
theorem merge_drops_older_record_at_failing_input :
    mergeOlderTbl.meta.created_at < mergeNewerTbl.meta.created_at ∧
    mergeOlderTbl.records.map (fun r => r.key) = [2] ∧
    mergeNewerTbl.records.map (fun r => r.key) = [1, 3] ∧
    SortedKeys mergeOlderTbl.records ∧ SortedKeys mergeNewerTbl.records ∧
    (mergeOlderTbl.merge mergeNewerTbl 200 3).map
        (fun t => t.records.map (fun r => r.key)) = .ok [1, 3] :=
  ⟨by decide, by decide, by decide, by decide, by decide, by rfl⟩

/-- C4 (code bug): a level built by `Level::new` (empty) plus two
`add_sstable` calls holds its handles in insertion order (`created_at`
ascending, here `[1, 2]`), both active, both containing key `5`; `get`
returns the record of the FIRST-ADDED (oldest) table, `Data 10`, not the
record `Data 20` of the table with the greatest `created_at`. -/
theorem level_get_returns_stale_record_at_failing_input :
    staleLevel.tables.map (fun h => h.meta.created_at) = [1, 2] ∧
    staleLevel.tables.map (fun h => h.active) = [true, true] ∧
    staleLevel.tables.map (fun h => h.table.get 5)
      = [some ⟨5, Value.Data 10⟩, some ⟨5, Value.Data 20⟩] ∧
    staleLevel.get 5 = some ⟨5, Value.Data 10⟩ := by
  refine ⟨by decide, by decide, by decide, by decide⟩

/-- C5 (code bug): `Level::clear_all` empties the handle list but — contrary
to its own doc comment "updates this level's metadata" — never calls
`update_table_ids`, leaving `meta.num_tables = 1` and `meta.table_ids = [1]`
on a level whose handle list has become empty. -/
theorem clear_all_leaves_stale_meta_at_failing_input :
    clearAllLevel.tables.length = 1 ∧
    clearAllLevel.meta.table_ids = [1] ∧
    (clearAllLevel.clear_all).tables = [] ∧
    (clearAllLevel.clear_all).meta.num_tables = 1 ∧
    (clearAllLevel.clear_all).meta.table_ids = [1] := by
  refine ⟨by decide, by decide, by decide, by decide, by decide⟩

/-- C9 counterexample: at the memtable interface, `set(k,v); del(k); get(k)`
returns `Some(Tombstone)`, not `None` as the claim states. -/
theorem memtable_get_after_del_counterexample :
    ((Memtable.new.set 1 7).del 1).get 1 ≠ none := by decide

/-- C9 (amended): at the engine interface `set;del;get` yields `None` and
`del;set;get` yields `Some(v)`; at the memtable interface the same sequences
yield the raw stored values `Some(Tombstone)` and `Some(Data v)`. -/
theorem tombstone_visibility_amended (t : LSMTree) (m : Memtable) (k : Nat)
    (v : Doc) :
    ((t.set k v).del k).get k = none ∧
    ((t.del k).set k v).get k = some v ∧
    ((m.set k v).del k).get k = some Value.Tombstone ∧
    ((m.del k).set k v).get k = some (Value.Data v) := by
  refine ⟨?_, ?_, ?_, ?_⟩
  · simp [LSMTree.get, LSMTree.get_from_memtable, LSMTree.set, LSMTree.del,
      LSMTree.insert, btreeGet_btreeInsert_self]
  · simp [LSMTree.get, LSMTree.get_from_memtable, LSMTree.set, LSMTree.del,
      LSMTree.insert, btreeGet_btreeInsert_self]
  · simp [Memtable.get, Memtable.set, Memtable.del, Memtable.insert,
      btreeGet_btreeInsert_self]
  · simp [Memtable.get, Memtable.set, Memtable.del, Memtable.insert,
      btreeGet_btreeInsert_self]

/-- C10: a `Level::clear(ids)` removes from the handle list exactly the
handles whose `table_id` is listed; the remainder is the order-preserving
filter of the original list (each surviving handle — metadata, path, active
flag and stored table — is kept whole, in its original relative position). -/
theorem clear_removes_exactly_listed (lvl : Level) (ids : List Nat) :
    (lvl.clear ids).tables
        = lvl.tables.filter (fun th => !(ids.contains th.meta.table_id)) ∧
    ((lvl.clear ids).tables).Sublist lvl.tables ∧
    (∀ th, th ∈ (lvl.clear ids).tables ↔
      (th ∈ lvl.tables ∧ ids.contains th.meta.table_id = false)) := by
  have h : (lvl.clear ids).tables
      = lvl.tables.filter (fun th => !(ids.contains th.meta.table_id)) := by
    show (Level.clearLoop ids lvl.tables) = _
    exact clearLoop_eq_filter ids lvl.tables
  refine ⟨h, ?_, ?_⟩
  · rw [h]; exact List.filter_sublist lvl.tables
  · intro th
    rw [h, List.mem_filter]
    simp

/-- C7: on a strictly key-ascending table, `get_range(min, max)` returns the
empty list when `min` is not the key of any record, and otherwise returns
exactly the table's records with keys in the inclusive range `[min, max]`,
in ascending (stored) order. -/
theorem get_range_spec (t : SSTable) (hs : SortedKeys t.records)
    (mn mx : Nat) :
    (mn ∉ t.records.map (fun r => r.key) → t.get_range mn mx = []) ∧
    (mn ∈ t.records.map (fun r => r.key) →
      t.get_range mn mx
        = t.records.filter
            (fun r => decide (mn ≤ r.key) && decide (r.key ≤ mx))) := by
  constructor
  · intro hmem
    unfold SSTable.get_range
    cases hgi : t.get_index mn with
    | none => rfl
    | some i =>
      obtain ⟨hil, hkey⟩ := get_index_sound hgi
      rw [List.getD_eq_getElem t.records defaultRecord hil] at hkey
      exact absurd
        (List.mem_map.mpr ⟨t.records[i], List.getElem_mem hil, hkey⟩) hmem
  · intro hmem
    unfold SSTable.get_range
    cases hgi : t.get_index mn with
    | none =>
      obtain ⟨r, hr, hrk⟩ := List.mem_map.mp hmem
      obtain ⟨j, hj, hje⟩ := List.mem_iff_getElem.mp hr
      have hne := get_index_none hs hgi j hj
      rw [List.getD_eq_getElem t.records defaultRecord hj, hje] at hne
      exact absurd hrk hne
    | some i =>
      obtain ⟨hil, hkey⟩ := get_index_sound hgi
      show SSTable.rangeLoop t.records mx i = _
      unfold SSTable.rangeLoop
      rw [rangeAux_eq_takeWhile t.records mx (t.records.length - i) i le_rfl]
      have hsdrop : SortedKeys (t.records.drop i) :=
        List.Pairwise.sublist (List.drop_sublist i t.records) hs
      rw [takeWhile_eq_filter_of_sorted mx _ hsdrop]
      have hdropkeys : ∀ r ∈ t.records.drop i, mn ≤ r.key := by
        intro r hr
        rw [List.drop_eq_getElem_cons hil] at hr
        have hd := hsdrop
        rw [List.drop_eq_getElem_cons hil, SortedKeys,
          List.pairwise_cons] at hd
        rcases List.mem_cons.mp hr with he | ht2
        · subst he
          rw [List.getD_eq_getElem t.records defaultRecord hil] at hkey
          omega
        · have hlt := hd.1 r ht2
          rw [List.getD_eq_getElem t.records defaultRecord hil] at hkey
          omega
      have hcongr : (t.records.drop i).filter
            (fun r => !(decide (mx < r.key)))
          = (t.records.drop i).filter
            (fun r => decide (mn ≤ r.key) && decide (r.key ≤ mx)) := by
        refine List.filter_congr ?_
        intro r hr
        have hge := hdropkeys r hr
        rw [Bool.eq_iff_iff]
        simp
        omega
      rw [hcongr]
      conv_rhs => rw [← List.take_append_drop i t.records]
      rw [List.filter_append]
      have hpre : (t.records.take i).filter
          (fun r => decide (mn ≤ r.key) && decide (r.key ≤ mx)) = [] := by
        rw [List.filter_eq_nil_iff]
        intro r hr
        obtain ⟨j, hjlen, hje⟩ := List.mem_iff_getElem.mp hr
        have hjlt : j < i := by
          have := hjlen
          rw [List.length_take] at this
          omega
        have hjr : j < t.records.length := by omega
        rw [List.getElem_take] at hje
        have hlt := sortedKeys_getD_lt hs hjlt hil
        rw [List.getD_eq_getElem t.records defaultRecord hjr,
          List.getD_eq_getElem t.records defaultRecord hil, hje] at hlt
        rw [List.getD_eq_getElem t.records defaultRecord hil] at hkey
        simp
        omega
      rw [hpre, List.nil_append]

/-- Witness for C7: on the concrete ascending table with keys
`[1, 3, 5, 8]`, `get_range 2 6` is empty (2 is not a key) and
`get_range 3 6` equals the filter of the records to keys in `[3, 6]`. -/
theorem get_range_spec_witness :
    rangeTbl.get_range 2 6 = [] ∧
    rangeTbl.get_range 3 6
      = rangeTbl.records.filter
          (fun r => decide (3 ≤ r.key) && decide (r.key ≤ 6)) :=
  ⟨(get_range_spec rangeTbl (by decide) 2 6).1 (by decide),
   (get_range_spec rangeTbl (by decide) 3 6).2 (by decide)⟩

/-- C6: flushing a non-empty memtable succeeds and yields a table whose
record list is exactly the memtable's `(key, value)` pairs in strictly
ascending key order, with `min_key` the first record's key, `max_key` the
last record's key, and `num_records` the record count (the fresh table id
and creation timestamp are the ones allocated by the flush). -/
theorem flush_emits_sorted_records (m : Memtable) (tableId createdAt : Nat)
    (hne : m.records ≠ [])
    (hs : m.records.Pairwise (fun a b => a.1 < b.1)) :
    ∃ tbl, m.flush tableId createdAt = .ok tbl ∧
      tbl.records = m.records.map (fun p => ⟨p.1, p.2⟩) ∧
      SortedKeys tbl.records ∧
      (∃ r0, tbl.records.head? = some r0 ∧ tbl.meta.min_key = r0.key) ∧
      (∃ rl, tbl.records.getLast? = some rl ∧ tbl.meta.max_key = rl.key) ∧
      tbl.meta.num_records = tbl.records.length ∧
      tbl.meta.table_id = tableId ∧ tbl.meta.created_at = createdAt := by
  have hne' : m.records.map (fun p => (⟨p.1, p.2⟩ : Record)) ≠ [] := by
    simpa [List.map_eq_nil_iff] using hne
  have hsorted : SortedKeys (m.records.map (fun p => (⟨p.1, p.2⟩ : Record))) := by
    rw [SortedKeys, List.pairwise_map]
    exact hs
  cases hh : (m.records.map (fun p => (⟨p.1, p.2⟩ : Record))).head? with
  | none => exact absurd (List.head?_eq_none_iff.mp hh) hne'
  | some first =>
    cases hl : (m.records.map (fun p => (⟨p.1, p.2⟩ : Record))).getLast? with
    | none => exact absurd (List.getLast?_eq_none_iff.mp hl) hne'
    | some last =>
      refine ⟨⟨⟨tableId, createdAt, first.key, last.key,
          (m.records.map (fun p => (⟨p.1, p.2⟩ : Record))).length⟩,
          m.records.map (fun p => (⟨p.1, p.2⟩ : Record))⟩,
        ?_, rfl, hsorted, ⟨first, hh, rfl⟩, ⟨last, hl, rfl⟩, rfl, rfl, rfl⟩
      simp only [Memtable.flush, hh, hl]

/-- Witness for C6: flushing the concrete two-record memtable succeeds. -/
theorem flush_emits_sorted_records_witness :
    (flushMemtable.flush 9 10).isOk = true := by
  obtain ⟨tbl, heq, hrest⟩ :=
    flush_emits_sorted_records flushMemtable 9 10 (by decide) (by decide)
  rw [heq]
  rfl

/-- C8: `SSTable::new(records)` errors exactly when `records` is empty, and
`MemTable::flush` errors exactly when the memtable holds zero records; in
the error case no table is produced (the result is the `EmptyInput`-style
error value, not an `ok`). -/
theorem empty_input_error_iff (records : List Record) (m : Memtable)
    (i1 t1 i2 t2 : Nat) :
    ((SSTable.new i1 t1 records).isOk = true ↔ records ≠ []) ∧
    (records = [] →
      SSTable.new i1 t1 records = .error "records vec was empty") ∧
    ((m.flush i2 t2).isOk = true ↔ m.records ≠ []) ∧
    (m.records = [] →
      m.flush i2 t2 = .error "records vec was empty") := by
  refine ⟨?_, ?_, ?_, ?_⟩
  · cases records with
    | nil => simp [SSTable.new, Except.isOk, Except.toBool]
    | cons r rest =>
      cases hl : (r :: rest).getLast? with
      | none => exact absurd (List.getLast?_eq_none_iff.mp hl) (by simp)
      | some last => simp [SSTable.new, hl, Except.isOk, Except.toBool]
  · intro h
    subst h
    rfl
  · by_cases hrec : m.records = []
    · simp [Memtable.flush, hrec, Except.isOk, Except.toBool]
    · have hne' : m.records.map (fun p => (⟨p.1, p.2⟩ : Record)) ≠ [] := by
        simpa [List.map_eq_nil_iff] using hrec
      cases hh : (m.records.map (fun p => (⟨p.1, p.2⟩ : Record))).head? with
      | none => exact absurd (List.head?_eq_none_iff.mp hh) hne'
      | some first =>
        cases hl : (m.records.map (fun p => (⟨p.1, p.2⟩ : Record))).getLast? with
        | none => exact absurd (List.getLast?_eq_none_iff.mp hl) hne'
        | some last =>
          simp [Memtable.flush, hh, hl, Except.isOk, Except.toBool, hrec]
  · intro h
    simp [Memtable.flush, h]

end Brickdb
